import Mathlib

/-!
The queue `lockfree::spsc::Queue`: a shallow embedding of `lib/spsc.h`

The ring buffer of `lib/spsc.h` is embedded as pure state passing.

* `size_t` values are natural numbers; every `size_t` addition of the source is
  reduced modulo `2 ^ 64` (`SIZE_MOD`).
* `T* buffer_` is the list of the cells that `new T[capacity + 1]` allocated.
* A call whose behaviour the language leaves undefined (a remainder by zero, an
  access outside the allocated cells) has no outcome: the embedded method
  returns `none`.  Otherwise it returns `some (result, state after the call)`.
-/

namespace lockfree
namespace spsc

/-- Number of values of `size_t` (64-bit): `size_t` arithmetic is modulo this. -/
def SIZE_MOD : Nat := 2 ^ 64

/-- The private members of `Queue<T>` (`lib/spsc.h`, lines 63-66). -/
structure Queue (T : Type) where
  capacity_ : Nat
  buffer_ : List T
  write_idx_ : Nat
  read_idx_ : Nat
deriving DecidableEq, Repr

variable {T : Type}

/-- The constructor `Queue(size_t capacity)` (lines 11-16).  `new T[capacity + 1]`
allocates `capacity + 1` cells, the sum being taken in `size_t` (the allocation is
taken to succeed); what the fresh cells hold is not fixed by the source and is given
by `init`. -/
def Queue.new (capacity : Nat) (init : Nat → T) : Queue T :=
  { capacity_ := capacity
    buffer_ := (List.range ((capacity + 1) % SIZE_MOD)).map init
    write_idx_ := 0
    read_idx_ := 0 }

/-- The expression `(idx + 1) % (capacity_ + 1)` of lines 24, 30 and 41, in
`size_t` arithmetic; `none` when the divisor `capacity_ + 1` is zero. -/
def Queue.next_idx (q : Queue T) (idx : Nat) : Option Nat :=
  if (q.capacity_ + 1) % SIZE_MOD = 0 then none
  else some (((idx + 1) % SIZE_MOD) % ((q.capacity_ + 1) % SIZE_MOD))

/-- Method `bool push_back(const T& elem)` (lines 22-32): the guard is evaluated first,
then the store into `buffer_[write_idx_]`, then the cursor update. -/
def Queue.push_back (q : Queue T) (elem : T) : Option (Bool × Queue T) :=
  match q.next_idx q.write_idx_ with
  | none => none
  | some next =>
    if next = q.read_idx_ then
      some (false, q)
    else if q.write_idx_ < q.buffer_.length then
      some (true, { q with buffer_ := q.buffer_.set q.write_idx_ elem, write_idx_ := next })
    else none

/-- Method `std::optional<T> pop_front()` (lines 34-43). -/
def Queue.pop_front (q : Queue T) : Option (Option T × Queue T) :=
  if q.write_idx_ = q.read_idx_ then
    some (none, q)
  else
    match q.buffer_[q.read_idx_]? with
    | none => none
    | some elem =>
      match q.next_idx q.read_idx_ with
      | none => none
      | some next => some (some elem, { q with read_idx_ := next })

/-- Method `std::optional<T> front()` (lines 45-53). -/
def Queue.front (q : Queue T) : Option (Option T × Queue T) :=
  if q.write_idx_ = q.read_idx_ then
    some (none, q)
  else
    match q.buffer_[q.read_idx_]? with
    | none => none
    | some elem => some (some elem, q)

/-- Method `bool empty() const` (lines 55-57). -/
def Queue.empty (q : Queue T) : Bool :=
  decide (q.write_idx_ = q.read_idx_)

/-- Method `bool full() const` (lines 59-61): `write_idx_ + 1 == read_idx_`, the sum in
`size_t`, with no remainder by `capacity_ + 1`. -/
def Queue.full (q : Queue T) : Bool :=
  decide ((q.write_idx_ + 1) % SIZE_MOD = q.read_idx_)

/-- A call of one of the five public methods. -/
inductive Op (T : Type) where
  | push_back (elem : T)
  | pop_front
  | front
  | empty
  | full
deriving DecidableEq, Repr

/-- A completed call together with the value it returned. -/
inductive Event (T : Type) where
  | push_back (elem : T) (ret : Bool)
  | pop_front (ret : Option T)
  | front (ret : Option T)
  | empty (ret : Bool)
  | full (ret : Bool)
deriving DecidableEq, Repr

/-- The call an event records. -/
def Event.call : Event T → Op T
  | .push_back elem _ => .push_back elem
  | .pop_front _ => .pop_front
  | .front _ => .front
  | .empty _ => .empty
  | .full _ => .full

/-- One call on a queue: the event it produces and the state it leaves. -/
def Queue.step (q : Queue T) : Op T → Option (Event T × Queue T)
  | .push_back elem => (q.push_back elem).map fun r => (Event.push_back elem r.1, r.2)
  | .pop_front => q.pop_front.map fun r => (Event.pop_front r.1, r.2)
  | .front => q.front.map fun r => (Event.front r.1, r.2)
  | .empty => some (Event.empty q.empty, q)
  | .full => some (Event.full q.full, q)

/-- A single-threaded sequence of calls, executed in order. -/
def Queue.run (q : Queue T) : List (Op T) → Option (List (Event T) × Queue T)
  | [] => some ([], q)
  | op :: ops =>
    match q.step op with
    | none => none
    | some (e, q1) =>
      match q1.run ops with
      | none => none
      | some (es, q2) => some (e :: es, q2)

/-- The values passed to the `push_back` calls that returned `true`, in call order. -/
def accepted : List (Event T) → List T
  | [] => []
  | Event.push_back elem true :: es => elem :: accepted es
  | _ :: es => accepted es

/-- The values returned by the `pop_front` calls that returned a value, in call order. -/
def delivered : List (Event T) → List T
  | [] => []
  | Event.pop_front (some elem) :: es => elem :: delivered es
  | _ :: es => delivered es

/-- Cells read from position `pos` onwards, `n` of them, stepping cyclically
through a buffer of `m` cells. -/
def walk (buf : List T) (m : Nat) : Nat → Nat → List T
  | 0, _ => []
  | n + 1, pos =>
    match buf[pos]? with
    | none => []
    | some x => x :: walk buf m n ((pos + 1) % m)

/-- Number of logical elements: `(write_idx_ - read_idx_) mod (capacity_ + 1)`. -/
def Queue.count (q : Queue T) : Nat :=
  (q.write_idx_ + (q.capacity_ + 1) - q.read_idx_) % (q.capacity_ + 1)

/-- The cells from `read_idx_` up to (not including) `write_idx_`, taken cyclically. -/
def Queue.contents (q : Queue T) : List T :=
  walk q.buffer_ (q.capacity_ + 1) q.count q.read_idx_

/-- Well-formed state: `capacity_ + 1` does not overflow `size_t`, the buffer has
the `capacity_ + 1` cells the constructor allocated, and both cursors are in
`[0, capacity_]`. -/
def Queue.WF (q : Queue T) : Prop :=
  q.capacity_ + 1 < SIZE_MOD ∧ q.buffer_.length = q.capacity_ + 1 ∧
    q.write_idx_ ≤ q.capacity_ ∧ q.read_idx_ ≤ q.capacity_

instance (q : Queue T) : Decidable q.WF := by
  unfold Queue.WF
  infer_instance

/-- The buffer cell a call reads or writes, when the call gets as far as the access:
`buffer_[write_idx_]` at line 29, reached when the guard of line 24 was evaluated and
did not hold; `buffer_[read_idx_]` at lines 40 and 51, reached when the cursors differ.
`empty()` and `full()` touch no cell. -/
def Queue.accessed (q : Queue T) : Op T → Option Nat
  | .push_back _ =>
    match q.next_idx q.write_idx_ with
    | none => none
    | some next => if next = q.read_idx_ then none else some q.write_idx_
  | .pop_front => if q.write_idx_ = q.read_idx_ then none else some q.read_idx_
  | .front => if q.write_idx_ = q.read_idx_ then none else some q.read_idx_
  | .empty => none
  | .full => none

/-- The calls of the bounded-list reference model: `push_back`, `pop_front`, `front`
and `empty`. -/
inductive Call (T : Type) where
  | push_back (elem : T)
  | pop_front
  | front
  | empty
deriving DecidableEq, Repr

/-- The method of `Queue` a call of the reference model stands for. -/
def Call.toOp : Call T → Op T
  | .push_back elem => Op.push_back elem
  | .pop_front => Op.pop_front
  | .front => Op.front
  | .empty => Op.empty

/-- Reference model of a bounded FIFO list of capacity `k`, written from the words of the
refinement claim: `push_back v` appends `v` and returns `true` iff the list has fewer
than `k` elements (else it returns `false` and leaves the list), `pop_front` removes and
returns the head or returns nothing when the list is empty, `front` returns the head
without removing it, and `empty` returns whether the list is empty. -/
def ListModel.step (k : Nat) (L : List T) : Call T → Event T × List T
  | .push_back elem =>
    if L.length < k then (Event.push_back elem true, L ++ [elem])
    else (Event.push_back elem false, L)
  | .pop_front =>
    match L with
    | [] => (Event.pop_front none, [])
    | x :: rest => (Event.pop_front (some x), rest)
  | .front => (Event.front L.head?, L)
  | .empty => (Event.empty L.isEmpty, L)

/-- A sequence of calls on the reference model, starting from the list `L`. -/
def ListModel.run (k : Nat) (L : List T) : List (Call T) → List (Event T) × List T
  | [] => ([], L)
  | c :: cs =>
    ((ListModel.step k L c).1 :: (ListModel.run k (ListModel.step k L c).2 cs).1,
      (ListModel.run k (ListModel.step k L c).2 cs).2)

/-! ## Index arithmetic -/

theorem succ_mod_of_lt {i m : Nat} (h : i < m) :
    (i + 1) % m = if i + 1 = m then 0 else i + 1 := by
  split
  · next h1 => rw [h1, Nat.mod_self]
  · next h1 => exact Nat.mod_eq_of_lt (by omega)

theorem dist_of_lt {w r m : Nat} (hw : w < m) (hr : r < m) :
    (w + m - r) % m = if r ≤ w then w - r else w + m - r := by
  split
  · next h1 =>
    have : w + m - r = (w - r) + m := by omega
    rw [this, Nat.add_mod_right]
    exact Nat.mod_eq_of_lt (by omega)
  · next h1 => exact Nat.mod_eq_of_lt (by omega)

theorem next_idx_of_WF {q : Queue T} (h : q.WF) {i : Nat} (hi : i ≤ q.capacity_) :
    q.next_idx i = some (if i + 1 = q.capacity_ + 1 then 0 else i + 1) := by
  obtain ⟨h1, -, -, -⟩ := h
  unfold SIZE_MOD at h1
  have e1 : (q.capacity_ + 1) % SIZE_MOD = q.capacity_ + 1 := Nat.mod_eq_of_lt h1
  have e2 : (i + 1) % SIZE_MOD = i + 1 := Nat.mod_eq_of_lt (by unfold SIZE_MOD; omega)
  unfold Queue.next_idx
  rw [e1, e2, if_neg (by omega), succ_mod_of_lt (by omega)]

theorem count_of_WF {q : Queue T} (h : q.WF) :
    q.count = if q.read_idx_ ≤ q.write_idx_ then q.write_idx_ - q.read_idx_
      else q.write_idx_ + (q.capacity_ + 1) - q.read_idx_ := by
  obtain ⟨-, -, h3, h4⟩ := h
  exact dist_of_lt (by omega) (by omega)

theorem count_le_of_WF {q : Queue T} (h : q.WF) : q.count ≤ q.capacity_ := by
  rw [count_of_WF h]
  obtain ⟨-, -, h3, h4⟩ := h
  split <;> omega

/-! ## The cyclic walk -/

theorem walk_length (buf : List T) (m : Nat) (hlen : buf.length = m) :
    ∀ n pos, pos < m → (walk buf m n pos).length = n := by
  intro n
  induction n with
  | zero => intro pos _; rfl
  | succ n ih =>
    intro pos hpos
    have hm : 0 < m := by omega
    have hget : buf[pos]? = some (buf[pos]) := List.getElem?_eq_getElem (by omega)
    simp only [walk, hget, List.length_cons]
    rw [ih _ (Nat.mod_lt _ hm)]

theorem walk_set_snoc (buf : List T) (m w : Nat) (v : T) (hlen : buf.length = m) (hw : w < m) :
    ∀ n pos, pos < m → (w + m - pos) % m = n →
      walk (buf.set w v) m (n + 1) pos = walk buf m n pos ++ [v] := by
  intro n
  induction n with
  | zero =>
    intro pos hpos hd
    rw [dist_of_lt hw hpos] at hd
    have hpw : pos = w := by split at hd <;> omega
    subst hpw
    have hget : (buf.set pos v)[pos]? = some v := by
      simp [List.getElem?_set, hlen, hpos]
    simp [walk, hget]
  | succ n ih =>
    intro pos hpos hd
    rw [dist_of_lt hw hpos] at hd
    have hne : w ≠ pos := by split at hd <;> omega
    have hget : buf[pos]? = some (buf[pos]) := List.getElem?_eq_getElem (by omega)
    have hget2 : (buf.set w v)[pos]? = some (buf[pos]) := by
      rw [List.getElem?_set_ne hne]; exact hget
    have hm : 0 < m := by omega
    have hnext : (w + m - (pos + 1) % m) % m = n := by
      rw [dist_of_lt hw (Nat.mod_lt _ hm), succ_mod_of_lt hpos]
      split at hd <;> split <;> split <;> omega
    have hrec := ih ((pos + 1) % m) (Nat.mod_lt _ hm) hnext
    calc walk (buf.set w v) m (n + 1 + 1) pos
        = buf[pos] :: walk (buf.set w v) m (n + 1) ((pos + 1) % m) := by
          simp only [walk, hget2]
      _ = buf[pos] :: (walk buf m n ((pos + 1) % m) ++ [v]) := by rw [hrec]
      _ = walk buf m (n + 1) pos ++ [v] := by
          simp only [walk, hget, List.cons_append]

/-! ## One call on a well-formed state -/

theorem contents_length {q : Queue T} (h : q.WF) : q.contents.length = q.count := by
  obtain ⟨-, h2, -, h4⟩ := h
  exact walk_length _ _ h2 _ _ (by omega)

theorem new_WF (k : Nat) (init : Nat → T) (hk : k + 1 < SIZE_MOD) : (Queue.new k init).WF := by
  refine ⟨hk, ?_, Nat.zero_le _, Nat.zero_le _⟩
  simp [Queue.new, Nat.mod_eq_of_lt hk]

theorem new_contents (k : Nat) (init : Nat → T) : (Queue.new k init).contents = [] := by
  simp [Queue.contents, Queue.count, Queue.new, walk]

theorem push_back_of_full {q : Queue T} (h : q.WF) (hc : q.count = q.capacity_) (v : T) :
    q.push_back v = some (false, q) := by
  have hn := next_idx_of_WF h h.2.2.1
  rw [count_of_WF h] at hc
  obtain ⟨-, -, h3, h4⟩ := h
  have : (if q.write_idx_ + 1 = q.capacity_ + 1 then 0 else q.write_idx_ + 1) = q.read_idx_ := by
    split at hc <;> split <;> omega
  simp only [Queue.push_back, hn, this, if_true]

theorem push_back_of_lt {q : Queue T} (h : q.WF) (hc : q.count < q.capacity_) (v : T) :
    ∃ q1, q.push_back v = some (true, q1) ∧ q1.WF ∧ q1.capacity_ = q.capacity_ ∧
      q1.read_idx_ = q.read_idx_ ∧
      q1.write_idx_ = (if q.write_idx_ = q.capacity_ then 0 else q.write_idx_ + 1) ∧
      q1.contents = q.contents ++ [v] := by
  have hn := next_idx_of_WF h h.2.2.1
  have hcnt := count_of_WF h
  obtain ⟨h1, h2, h3, h4⟩ := h
  have hne : ¬ (if q.write_idx_ + 1 = q.capacity_ + 1 then 0 else q.write_idx_ + 1) = q.read_idx_ := by
    rw [hcnt] at hc
    split at hc <;> split <;> omega
  have hlt : q.write_idx_ < q.buffer_.length := by omega
  refine ⟨{ q with buffer_ := q.buffer_.set q.write_idx_ v,
                   write_idx_ := if q.write_idx_ + 1 = q.capacity_ + 1 then 0 else q.write_idx_ + 1 },
    ?_, ?_, rfl, rfl, ?_, ?_⟩
  · simp only [Queue.push_back, hn, if_neg hne, if_pos hlt]
  · refine ⟨h1, ?_, ?_, h4⟩
    · simpa using h2
    · show (if q.write_idx_ + 1 = q.capacity_ + 1 then 0 else q.write_idx_ + 1) ≤ q.capacity_
      split <;> omega
  · show (if q.write_idx_ + 1 = q.capacity_ + 1 then 0 else q.write_idx_ + 1) = _
    split <;> split <;> omega
  · have hc1 : ((if q.write_idx_ + 1 = q.capacity_ + 1 then 0 else q.write_idx_ + 1) +
          (q.capacity_ + 1) - q.read_idx_) % (q.capacity_ + 1) = q.count + 1 := by
      rw [dist_of_lt (by split <;> omega) (by omega), hcnt]
      rw [hcnt] at hc
      split_ifs at hc ⊢ <;> omega
    show walk (q.buffer_.set q.write_idx_ v) (q.capacity_ + 1)
      (((if q.write_idx_ + 1 = q.capacity_ + 1 then 0 else q.write_idx_ + 1) +
          (q.capacity_ + 1) - q.read_idx_) % (q.capacity_ + 1)) q.read_idx_ =
      walk q.buffer_ (q.capacity_ + 1) q.count q.read_idx_ ++ [v]
    rw [hc1]
    exact walk_set_snoc q.buffer_ (q.capacity_ + 1) q.write_idx_ v h2 (by omega) q.count
      q.read_idx_ (by omega) rfl

theorem pop_front_of_zero {q : Queue T} (h : q.WF) (hc : q.count = 0) :
    q.pop_front = some (none, q) ∧ q.front = some (none, q) ∧ q.contents = [] := by
  rw [count_of_WF h] at hc
  obtain ⟨-, -, h3, h4⟩ := h
  have hwr : q.write_idx_ = q.read_idx_ := by split at hc <;> omega
  refine ⟨by simp [Queue.pop_front, hwr], by simp [Queue.front, hwr], ?_⟩
  simp [Queue.contents, Queue.count, hwr, walk]

theorem pop_front_of_pos {q : Queue T} (h : q.WF) (hc : q.count ≠ 0) :
    ∃ x q1, q.pop_front = some (some x, q1) ∧ q.front = some (some x, q) ∧
      q.buffer_[q.read_idx_]? = some x ∧ q1.WF ∧
      q1.capacity_ = q.capacity_ ∧ q1.write_idx_ = q.write_idx_ ∧ q1.buffer_ = q.buffer_ ∧
      q1.read_idx_ = (if q.read_idx_ = q.capacity_ then 0 else q.read_idx_ + 1) ∧
      q.contents = x :: q1.contents := by
  have hn := next_idx_of_WF h h.2.2.2
  have hcnt := count_of_WF h
  obtain ⟨h1, h2, h3, h4⟩ := h
  have hwr : ¬ q.write_idx_ = q.read_idx_ := by
    rw [hcnt] at hc
    split at hc <;> omega
  have hget : q.buffer_[q.read_idx_]? = some (q.buffer_[q.read_idx_]) :=
    List.getElem?_eq_getElem (by omega)
  refine ⟨q.buffer_[q.read_idx_],
    { q with read_idx_ := if q.read_idx_ + 1 = q.capacity_ + 1 then 0 else q.read_idx_ + 1 },
    ?_, ?_, hget, ?_, rfl, rfl, rfl, ?_, ?_⟩
  · simp only [Queue.pop_front, if_neg hwr, hget, hn]
  · simp only [Queue.front, if_neg hwr, hget]
  · refine ⟨h1, h2, h3, ?_⟩
    show (if q.read_idx_ + 1 = q.capacity_ + 1 then 0 else q.read_idx_ + 1) ≤ q.capacity_
    split <;> omega
  · show (if q.read_idx_ + 1 = q.capacity_ + 1 then 0 else q.read_idx_ + 1) = _
    split <;> split <;> omega
  · have hc1 : q.count = (q.write_idx_ + (q.capacity_ + 1) -
          (if q.read_idx_ + 1 = q.capacity_ + 1 then 0 else q.read_idx_ + 1)) % (q.capacity_ + 1) + 1 := by
      rw [dist_of_lt (by omega) (by split <;> omega), hcnt]
      rw [hcnt] at hc
      split_ifs at hc ⊢ <;> omega
    show walk q.buffer_ (q.capacity_ + 1) q.count q.read_idx_ =
      q.buffer_[q.read_idx_] :: walk q.buffer_ (q.capacity_ + 1)
        ((q.write_idx_ + (q.capacity_ + 1) -
          (if q.read_idx_ + 1 = q.capacity_ + 1 then 0 else q.read_idx_ + 1)) % (q.capacity_ + 1))
        (if q.read_idx_ + 1 = q.capacity_ + 1 then 0 else q.read_idx_ + 1)
    rw [hc1]
    simp only [walk, hget]
    rw [succ_mod_of_lt (by omega)]

/-! ## Sequences of calls -/

theorem run_cons_of_step {q q1 : Queue T} {op : Op T} {e : Event T} (ops : List (Op T))
    (h : q.step op = some (e, q1)) :
    q.run (op :: ops) = (q1.run ops).map fun r => (e :: r.1, r.2) := by
  simp only [Queue.run, h]
  cases q1.run ops <;> rfl

theorem run_append (q : Queue T) (ops1 ops2 : List (Op T)) {es1 : List (Event T)} {q1 : Queue T}
    (h : q.run ops1 = some (es1, q1)) :
    q.run (ops1 ++ ops2) = (q1.run ops2).map fun r => (es1 ++ r.1, r.2) := by
  induction ops1 generalizing q es1 with
  | nil =>
    simp only [Queue.run, Option.some.injEq, Prod.mk.injEq] at h
    obtain ⟨rfl, rfl⟩ := h
    rw [List.nil_append]
    cases q.run ops2 <;> simp
  | cons op ops ih =>
    simp only [Queue.run] at h
    cases hs : q.step op with
    | none => simp [hs] at h
    | some r =>
      obtain ⟨e, q2⟩ := r
      rw [hs] at h
      cases hr : q2.run ops with
      | none => simp [hr] at h
      | some r2 =>
        obtain ⟨es, q3⟩ := r2
        simp only [hr, Option.some.injEq, Prod.mk.injEq] at h
        obtain ⟨rfl, rfl⟩ := h
        rw [List.cons_append, run_cons_of_step _ hs, ih q2 hr]
        cases q3.run ops2 <;> simp

theorem accepted_cons (e : Event T) (es : List (Event T)) :
    accepted (e :: es) = accepted [e] ++ accepted es := by
  cases e with
  | push_back elem ret => cases ret <;> simp [accepted]
  | pop_front ret => simp [accepted]
  | front ret => simp [accepted]
  | empty ret => simp [accepted]
  | full ret => simp [accepted]

theorem delivered_cons (e : Event T) (es : List (Event T)) :
    delivered (e :: es) = delivered [e] ++ delivered es := by
  cases e with
  | push_back elem ret => simp [delivered]
  | pop_front ret => cases ret <;> simp [delivered]
  | front ret => simp [delivered]
  | empty ret => simp [delivered]
  | full ret => simp [delivered]

theorem step_of_WF {q : Queue T} (h : q.WF) (op : Op T) :
    ∃ e q1, q.step op = some (e, q1) ∧ q1.WF ∧ q1.capacity_ = q.capacity_ ∧ e.call = op ∧
      q.contents ++ accepted [e] = delivered [e] ++ q1.contents := by
  cases op with
  | push_back v =>
    rcases Nat.lt_or_ge q.count q.capacity_ with hc | hc
    · obtain ⟨q1, hp, hwf, hcap, -, -, hcont⟩ := push_back_of_lt h hc v
      exact ⟨Event.push_back v true, q1, by simp [Queue.step, hp], hwf, hcap, rfl,
        by simp [accepted, delivered, hcont]⟩
    · have hp := push_back_of_full h (Nat.le_antisymm (count_le_of_WF h) hc) v
      exact ⟨Event.push_back v false, q, by simp [Queue.step, hp], h, rfl, rfl,
        by simp [accepted, delivered]⟩
  | pop_front =>
    by_cases hc : q.count = 0
    · obtain ⟨hp, -, -⟩ := pop_front_of_zero h hc
      exact ⟨Event.pop_front none, q, by simp [Queue.step, hp], h, rfl, rfl,
        by simp [accepted, delivered]⟩
    · obtain ⟨x, q1, hp, -, -, hwf, hcap, -, -, -, hcont⟩ := pop_front_of_pos h hc
      exact ⟨Event.pop_front (some x), q1, by simp [Queue.step, hp], hwf, hcap, rfl,
        by simp [accepted, delivered, hcont]⟩
  | front =>
    by_cases hc : q.count = 0
    · obtain ⟨-, hf, -⟩ := pop_front_of_zero h hc
      exact ⟨Event.front none, q, by simp [Queue.step, hf], h, rfl, rfl,
        by simp [accepted, delivered]⟩
    · obtain ⟨x, q1, -, hf, -, -, -, -, -, -, -⟩ := pop_front_of_pos h hc
      exact ⟨Event.front (some x), q, by simp [Queue.step, hf], h, rfl, rfl,
        by simp [accepted, delivered]⟩
  | empty => exact ⟨Event.empty q.empty, q, rfl, h, rfl, rfl, by simp [accepted, delivered]⟩
  | full => exact ⟨Event.full q.full, q, rfl, h, rfl, rfl, by simp [accepted, delivered]⟩

theorem run_of_WF {q : Queue T} (h : q.WF) (ops : List (Op T)) :
    ∃ es q1, q.run ops = some (es, q1) ∧ q1.WF ∧ q1.capacity_ = q.capacity_ ∧
      es.map Event.call = ops ∧ q.contents ++ accepted es = delivered es ++ q1.contents := by
  induction ops generalizing q with
  | nil => exact ⟨[], q, rfl, h, rfl, rfl, by simp [accepted, delivered]⟩
  | cons op ops ih =>
    obtain ⟨e, q1, hs, hwf1, hcap1, hcall1, hc1⟩ := step_of_WF h op
    obtain ⟨es, q2, hr, hwf2, hcap2, hcall2, hc2⟩ := ih hwf1
    refine ⟨e :: es, q2, ?_, hwf2, hcap2.trans hcap1, by simp [hcall1, hcall2], ?_⟩
    · rw [run_cons_of_step _ hs, hr]; rfl
    · rw [accepted_cons, delivered_cons, ← List.append_assoc, hc1, List.append_assoc, hc2,
        List.append_assoc]

theorem run_stuck {q : Queue T} (hz : (q.capacity_ + 1) % SIZE_MOD = 0)
    (he : q.write_idx_ = q.read_idx_) (ops : List (Op T)) :
    ∀ es q1, q.run ops = some (es, q1) → q1 = q ∧ accepted es = [] ∧ delivered es = [] := by
  induction ops with
  | nil =>
    intro es q1 hr
    simp only [Queue.run, Option.some.injEq, Prod.mk.injEq] at hr
    obtain ⟨rfl, rfl⟩ := hr
    exact ⟨rfl, rfl, rfl⟩
  | cons op ops ih =>
    intro es q1 hr
    have hstep : q.step op = none ∨ ∃ e, q.step op = some (e, q) ∧ accepted [e] = [] ∧
        delivered [e] = [] := by
      cases op with
      | push_back v => left; simp [Queue.step, Queue.push_back, Queue.next_idx, hz]
      | pop_front =>
        right; exact ⟨Event.pop_front none, by simp [Queue.step, Queue.pop_front, he], rfl, rfl⟩
      | front => right; exact ⟨Event.front none, by simp [Queue.step, Queue.front, he], rfl, rfl⟩
      | empty => right; exact ⟨Event.empty q.empty, rfl, rfl, rfl⟩
      | full => right; exact ⟨Event.full q.full, rfl, rfl, rfl⟩
    rcases hstep with hs | ⟨e, hs, ha, hd⟩
    · simp [Queue.run, hs] at hr
    · rw [run_cons_of_step _ hs] at hr
      cases hr2 : q.run ops with
      | none => simp [hr2] at hr
      | some r =>
        obtain ⟨es2, q2⟩ := r
        simp only [hr2, Option.map_some', Option.some.injEq, Prod.mk.injEq] at hr
        obtain ⟨rfl, rfl⟩ := hr
        obtain ⟨h1, h2, h3⟩ := ih es2 q2 hr2
        exact ⟨h1, by rw [accepted_cons, ha, h2]; rfl, by rw [delivered_cons, hd, h3]; rfl⟩

theorem run_pushes {q : Queue T} (h : q.WF) (vs : List T)
    (hroom : q.count + vs.length ≤ q.capacity_) :
    ∃ q1, q.run (vs.map Op.push_back) = some (vs.map (fun v => Event.push_back v true), q1) ∧
      q1.WF ∧ q1.capacity_ = q.capacity_ ∧ q1.read_idx_ = q.read_idx_ ∧
      q1.contents = q.contents ++ vs := by
  induction vs generalizing q with
  | nil => exact ⟨q, rfl, h, rfl, rfl, by simp⟩
  | cons v vs ih =>
    simp only [List.length_cons] at hroom
    obtain ⟨q1, hp, hwf, hcap, hrd, -, hcont⟩ := push_back_of_lt h (by omega) v
    have hcnt : q1.count = q.count + 1 := by
      rw [← contents_length hwf, hcont, List.length_append, contents_length h]; rfl
    obtain ⟨q2, hr, hwf2, hcap2, hrd2, hcont2⟩ := ih hwf (by rw [hcnt, hcap]; omega)
    refine ⟨q2, ?_, hwf2, hcap2.trans hcap, hrd2.trans hrd, by rw [hcont2, hcont]; simp⟩
    have hs : q.step (Op.push_back v) = some (Event.push_back v true, q1) := by
      simp [Queue.step, hp]
    rw [List.map_cons, run_cons_of_step _ hs, hr]; rfl

theorem run_pops {q : Queue T} (h : q.WF) (xs ys : List T) (hc : q.contents = xs ++ ys) :
    ∃ q1, q.run (List.replicate xs.length Op.pop_front) =
        some (xs.map (fun x => Event.pop_front (some x)), q1) ∧
      q1.WF ∧ q1.capacity_ = q.capacity_ ∧ q1.write_idx_ = q.write_idx_ ∧ q1.contents = ys := by
  induction xs generalizing q with
  | nil => exact ⟨q, rfl, h, rfl, rfl, by simpa using hc⟩
  | cons x xs ih =>
    have hpos : q.count ≠ 0 := by
      rw [← contents_length h, hc]; simp
    obtain ⟨x1, q1, hp, -, -, hwf, hcap, hwr, -, -, hcont⟩ := pop_front_of_pos h hpos
    rw [hc, List.cons_append, List.cons.injEq] at hcont
    obtain ⟨rfl, hrest⟩ := hcont
    obtain ⟨q2, hr, hwf2, hcap2, hwr2, hcont2⟩ := ih hwf hrest.symm
    refine ⟨q2, ?_, hwf2, hcap2.trans hcap, hwr2.trans hwr, hcont2⟩
    have hs : q.step Op.pop_front = some (Event.pop_front (some x), q1) := by
      simp [Queue.step, hp]
    rw [List.length_cons, List.replicate_succ, run_cons_of_step _ hs, hr]; rfl

theorem rejected_push_atomic_aux {q : Queue T} {v : T}
    (hfull : q.next_idx q.write_idx_ = some q.read_idx_) : q.push_back v = some (false, q) := by
  simp [Queue.push_back, hfull]

theorem front_pop_agree_of_eq {q : Queue T} (he : q.write_idx_ = q.read_idx_) :
    ∃ r q1, q.front = some (r, q) ∧ q.pop_front = some (r, q1) ∧
      r = (if q.write_idx_ = q.read_idx_ then none else q.buffer_[q.read_idx_]?) :=
  ⟨none, q, by simp [Queue.front, he], by simp [Queue.pop_front, he], by simp [he]⟩

theorem front_pop_agree_of_WF {q : Queue T} (h : q.WF) :
    ∃ r q1, q.front = some (r, q) ∧ q.pop_front = some (r, q1) ∧
      r = (if q.write_idx_ = q.read_idx_ then none else q.buffer_[q.read_idx_]?) := by
  by_cases he : q.write_idx_ = q.read_idx_
  · exact front_pop_agree_of_eq he
  · have hc : q.count ≠ 0 := by
      rw [count_of_WF h]
      obtain ⟨-, -, h3, h4⟩ := h
      split <;> omega
    obtain ⟨x, q1, hp, hf, hget, -⟩ := pop_front_of_pos h hc
    exact ⟨some x, q1, hf, hp, by rw [if_neg he, hget]⟩

theorem int_count_of_WF {q : Queue T} (h : q.WF) :
    ((q.write_idx_ : Int) - (q.read_idx_ : Int)) % ((q.capacity_ : Int) + 1) = (q.count : Int) := by
  rw [count_of_WF h]
  obtain ⟨-, -, h3, h4⟩ := h
  split
  · next hle =>
    rw [Int.emod_eq_of_lt (by omega) (by omega)]
    omega
  · next hlt =>
    rw [← Int.add_emod_self, Int.emod_eq_of_lt (by omega) (by omega)]
    omega

theorem new_stuck_of_size_max (k : Nat) (hk : k < 2 ^ 64) (hk2 : ¬ k < 2 ^ 64 - 1)
    (init : Nat → T) : ((Queue.new k init).capacity_ + 1) % SIZE_MOD = 0 := by
  have hk3 : k = 2 ^ 64 - 1 := by omega
  subst hk3
  show (2 ^ 64 - 1 + 1) % 2 ^ 64 = 0
  norm_num

theorem run_push_of_zero_divisor {q : Queue T} (hz : (q.capacity_ + 1) % SIZE_MOD = 0) (v : T)
    (ops : List (Op T)) : q.run (Op.push_back v :: ops) = none := by
  simp [Queue.run, Queue.step, Queue.push_back, Queue.next_idx, hz]

theorem size_mod_of_lt {k : Nat} (hk : k < 2 ^ 64 - 1) : k + 1 < SIZE_MOD := by
  unfold SIZE_MOD; omega

/-! ## C1 — full at capacity -/

/-- C1 (as amended): for every capacity `k < 2^64 - 1` and all values `v1..vk`, `x`, on a
fresh `Queue(k)` the `k` calls `push_back(v1) .. push_back(vk)` all return `true`, the
following `push_back(x)` returns `false`, and the `k` calls of `pop_front` after it return
`v1, .., vk` in that order. -/
theorem full_at_capacity (k : Nat) (hk : k < 2 ^ 64 - 1) (init : Nat → T) (vs : List T) (x : T)
    (hlen : vs.length = k) :
    ∃ q, (Queue.new k init).run
        (vs.map Op.push_back ++ [Op.push_back x] ++ List.replicate k Op.pop_front) =
      some (vs.map (fun v => Event.push_back v true) ++ [Event.push_back x false] ++
        vs.map (fun v => Event.pop_front (some v)), q) := by
  have hwf := new_WF k init (size_mod_of_lt hk)
  have hcnt0 : (Queue.new k init).count = 0 := by
    rw [← contents_length hwf, new_contents]; rfl
  obtain ⟨q1, hr1, hwf1, hcap1, -, hcont1⟩ :=
    run_pushes hwf vs (by rw [hcnt0, hlen]; exact Nat.le_of_eq (Nat.zero_add k))
  rw [new_contents, List.nil_append] at hcont1
  have hfull : q1.count = q1.capacity_ := by
    rw [← contents_length hwf1, hcont1, hlen, hcap1]; rfl
  have hr2 : q1.run [Op.push_back x] = some ([Event.push_back x false], q1) := by
    simp [Queue.run, Queue.step, push_back_of_full hwf1 hfull x]
  obtain ⟨q3, hr3, -, -, -, -⟩ := run_pops hwf1 vs [] (by rw [hcont1, List.append_nil])
  rw [hlen] at hr3
  refine ⟨q3, ?_⟩
  rw [List.append_assoc, run_append _ _ _ hr1, run_append _ _ _ hr2, hr3]
  simp

/-- C1, a concrete instance: capacity 2 with the values 1, 2 and then 3. -/
theorem full_at_capacity_witness :
    (2 < 2 ^ 64 - 1) ∧ [1, 2].length = 2 ∧
    ∃ q, (Queue.new 2 (fun _ => 0)).run
        ([1, 2].map Op.push_back ++ [Op.push_back 3] ++ List.replicate 2 Op.pop_front) =
      some ([1, 2].map (fun v => Event.push_back v true) ++ [Event.push_back 3 false] ++
        [1, 2].map (fun v => Event.pop_front (some v)), q) :=
  ⟨by norm_num, rfl, full_at_capacity 2 (by norm_num) (fun _ => 0) [1, 2] 3 rfl⟩

/-- C1 as stated fails at capacity `2^64 - 1`: `capacity_ + 1` is `0` in `size_t`, the first
`push_back` takes a remainder by zero, and the sequence of calls has no defined results. -/
theorem full_at_capacity_fails_at_size_max :
    ¬ ∃ q, (Queue.new (2 ^ 64 - 1) (fun _ => 0)).run
        ((List.replicate (2 ^ 64 - 1) 0).map Op.push_back ++ [Op.push_back 0] ++
          List.replicate (2 ^ 64 - 1) Op.pop_front) =
      some ((List.replicate (2 ^ 64 - 1) 0).map (fun v => Event.push_back v true) ++
        [Event.push_back 0 false] ++
        (List.replicate (2 ^ 64 - 1) 0).map (fun v => Event.pop_front (some v)), q) := by
  rintro ⟨q, hq⟩
  have hz : ((Queue.new (2 ^ 64 - 1) (fun _ => 0) : Queue Nat).capacity_ + 1) % SIZE_MOD = 0 := by
    decide
  have hrep : List.replicate (2 ^ 64 - 1) 0 = 0 :: List.replicate (2 ^ 64 - 2) 0 :=
    List.replicate_succ (n := 2 ^ 64 - 2) (a := 0)
  rw [hrep, List.map_cons, List.cons_append, List.cons_append,
    run_push_of_zero_divisor hz] at hq
  exact Option.noConfusion hq

theorem step_call {q q1 : Queue T} {op : Op T} {e : Event T} (h : q.step op = some (e, q1)) :
    e.call = op := by
  cases op with
  | push_back v =>
    simp only [Queue.step, Option.map_eq_some', Prod.mk.injEq] at h
    obtain ⟨r, -, rfl, -⟩ := h
    rfl
  | pop_front =>
    simp only [Queue.step, Option.map_eq_some', Prod.mk.injEq] at h
    obtain ⟨r, -, rfl, -⟩ := h
    rfl
  | front =>
    simp only [Queue.step, Option.map_eq_some', Prod.mk.injEq] at h
    obtain ⟨r, -, rfl, -⟩ := h
    rfl
  | empty =>
    simp only [Queue.step, Option.some.injEq, Prod.mk.injEq] at h
    obtain ⟨rfl, -⟩ := h
    rfl
  | full =>
    simp only [Queue.step, Option.some.injEq, Prod.mk.injEq] at h
    obtain ⟨rfl, -⟩ := h
    rfl

theorem run_calls {q : Queue T} (ops : List (Op T)) :
    ∀ es q1, q.run ops = some (es, q1) → es.map Event.call = ops := by
  induction ops generalizing q with
  | nil =>
    intro es q1 hr
    simp only [Queue.run, Option.some.injEq, Prod.mk.injEq] at hr
    obtain ⟨rfl, -⟩ := hr
    rfl
  | cons op ops ih =>
    intro es q1 hr
    cases hs : q.step op with
    | none => simp [Queue.run, hs] at hr
    | some r =>
      obtain ⟨e, q2⟩ := r
      rw [run_cons_of_step _ hs] at hr
      cases hr2 : q2.run ops with
      | none => simp [hr2] at hr
      | some r2 =>
        obtain ⟨es2, q3⟩ := r2
        simp only [hr2, Option.map_some', Option.some.injEq, Prod.mk.injEq] at hr
        obtain ⟨rfl, -⟩ := hr
        rw [List.map_cons, step_call hs, ih es2 q3 hr2]

/-! ## C2 — FIFO order -/

/-- C2: for every `size_t` capacity `k` and every finite sequence of calls on a fresh
`Queue(k)`, the values returned by the successful `pop_front` calls, in call order, are a
prefix of the values passed to the `push_back` calls that returned `true`, in call order;
the events are those of the calls made, one for each.  For `k < 2^64 - 1` every sequence of
calls does return. -/
theorem fifo_order (k : Nat) (hk : k < 2 ^ 64) (init : Nat → T) (ops : List (Op T)) :
    (k < 2 ^ 64 - 1 → ∃ es q, (Queue.new k init).run ops = some (es, q)) ∧
    ∀ es q, (Queue.new k init).run ops = some (es, q) →
      es.map Event.call = ops ∧ delivered es <+: accepted es := by
  refine ⟨fun hk2 => ?_, fun es q hr => ⟨run_calls ops es q hr, ?_⟩⟩
  · obtain ⟨es, q, hr, -⟩ := run_of_WF (new_WF k init (size_mod_of_lt hk2)) ops
    exact ⟨es, q, hr⟩
  · by_cases hk2 : k < 2 ^ 64 - 1
    · obtain ⟨es1, q1, hr1, -, -, -, hc⟩ := run_of_WF (new_WF k init (size_mod_of_lt hk2)) ops
      rw [hr1, Option.some.injEq, Prod.mk.injEq] at hr
      obtain ⟨rfl, rfl⟩ := hr
      rw [new_contents, List.nil_append] at hc
      exact ⟨q1.contents, hc.symm⟩
    · obtain ⟨-, ha, hd⟩ := run_stuck (new_stuck_of_size_max k hk hk2 init) rfl ops es q hr
      rw [ha, hd]

/-- C2, the order of the test `WrapAround`: capacity 2, two pushes, a pop, a push and two
pops; the pops return 1, 2, 3, the values accepted, in that order. -/
theorem fifo_order_witness :
    (2 < 2 ^ 64) ∧
    (Queue.new 2 (fun _ => 0)).run
        [Op.push_back 1, Op.push_back 2, Op.pop_front, Op.push_back 3, Op.pop_front,
          Op.pop_front] =
      some ([Event.push_back 1 true, Event.push_back 2 true, Event.pop_front (some 1),
        Event.push_back 3 true, Event.pop_front (some 2), Event.pop_front (some 3)],
        ⟨2, [1, 2, 3], 0, 0⟩) ∧
    delivered [Event.push_back 1 true, Event.push_back 2 true, Event.pop_front (some 1),
        Event.push_back 3 true, Event.pop_front (some 2), Event.pop_front (some 3)] <+:
      accepted [Event.push_back 1 true, Event.push_back 2 true, Event.pop_front (some 1),
        Event.push_back 3 true, Event.pop_front (some 2), Event.pop_front (some 3)] :=
  ⟨by norm_num, by decide,
    ((fifo_order 2 (by norm_num) (fun _ => 0)
      [Op.push_back 1, Op.push_back 2, Op.pop_front, Op.push_back 3, Op.pop_front,
        Op.pop_front]).2
      [Event.push_back 1 true, Event.push_back 2 true, Event.pop_front (some 1),
        Event.push_back 3 true, Event.pop_front (some 2), Event.pop_front (some 3)]
      ⟨2, [1, 2, 3], 0, 0⟩ (by decide)).2⟩

/-! ## C3 — a rejected push changes nothing -/

/-- C3: in every queue state in which the guard `(write_idx_ + 1) % (capacity_ + 1)` of
`push_back` evaluates to `read_idx_`, `push_back(v)` returns `false` for every `v` and the
state after the call is the state before it (capacity, both cursors and every cell). -/
theorem rejected_push_unchanged (q : Queue T) (v : T)
    (hfull : q.next_idx q.write_idx_ = some q.read_idx_) :
    q.push_back v = some (false, q) := by
  simp [Queue.push_back, hfull]

/-- C3, a concrete instance: a queue of capacity 2 holding 1 and 2 rejects 3. -/
theorem rejected_push_unchanged_witness :
    (⟨2, [1, 2, 0], 2, 0⟩ : Queue Nat).next_idx 2 = some 0 ∧
    (⟨2, [1, 2, 0], 2, 0⟩ : Queue Nat).push_back 3 = some (false, ⟨2, [1, 2, 0], 2, 0⟩) :=
  ⟨by decide, rejected_push_unchanged ⟨2, [1, 2, 0], 2, 0⟩ 3 (by decide)⟩

/-! ## C4 — popping or peeking an empty queue -/

/-- C4: in every queue state with `read_idx_ = write_idx_`, `pop_front()` and `front()`
return `nullopt` and leave the whole state as it was, `empty()` is `true`, and any sequence
of `pop_front`/`front` calls returns `nullopt` each time and ends in the same state. -/
theorem empty_pop_unchanged (q : Queue T) (he : q.read_idx_ = q.write_idx_) :
    q.pop_front = some (none, q) ∧ q.front = some (none, q) ∧ q.empty = true ∧
    ∀ ops : List (Op T), (∀ op ∈ ops, op = Op.pop_front ∨ op = Op.front) →
      ∃ es, q.run ops = some (es, q) ∧ es.map Event.call = ops ∧
        ∀ e ∈ es, e = Event.pop_front none ∨ e = Event.front none := by
  have hp : q.pop_front = some (none, q) := by simp [Queue.pop_front, he]
  have hf : q.front = some (none, q) := by simp [Queue.front, he]
  refine ⟨hp, hf, by simp [Queue.empty, he], ?_⟩
  intro ops
  induction ops with
  | nil => intro _; exact ⟨[], rfl, rfl, by simp⟩
  | cons op ops ih =>
    intro hops
    obtain ⟨es, hr, hcall, hes⟩ := ih (fun o ho => hops o (List.mem_cons_of_mem _ ho))
    rcases hops op (List.mem_cons_self _ _) with rfl | rfl
    · have hs : q.step Op.pop_front = some (Event.pop_front none, q) := by simp [Queue.step, hp]
      refine ⟨Event.pop_front none :: es, by rw [run_cons_of_step _ hs, hr]; rfl,
        by simp [hcall, Event.call], ?_⟩
      intro e he1
      rcases List.mem_cons.mp he1 with rfl | h1
      · exact Or.inl rfl
      · exact hes e h1
    · have hs : q.step Op.front = some (Event.front none, q) := by simp [Queue.step, hf]
      refine ⟨Event.front none :: es, by rw [run_cons_of_step _ hs, hr]; rfl,
        by simp [hcall, Event.call], ?_⟩
      intro e he1
      rcases List.mem_cons.mp he1 with rfl | h1
      · exact Or.inr rfl
      · exact hes e h1

/-- C4, a concrete instance: an empty queue of capacity 2 with both cursors at 1. -/
theorem empty_pop_unchanged_witness :
    (⟨2, [5, 6, 7], 1, 1⟩ : Queue Nat).read_idx_ = (⟨2, [5, 6, 7], 1, 1⟩ : Queue Nat).write_idx_ ∧
    (⟨2, [5, 6, 7], 1, 1⟩ : Queue Nat).pop_front = some (none, ⟨2, [5, 6, 7], 1, 1⟩) ∧
    (⟨2, [5, 6, 7], 1, 1⟩ : Queue Nat).front = some (none, ⟨2, [5, 6, 7], 1, 1⟩) :=
  ⟨rfl, (empty_pop_unchanged ⟨2, [5, 6, 7], 1, 1⟩ rfl).1,
    (empty_pop_unchanged ⟨2, [5, 6, 7], 1, 1⟩ rfl).2.1⟩

/-! ## C5 — zero capacity -/

/-- C5: on a `Queue` constructed with capacity 0, in every finite sequence of `push_back`,
`pop_front` and `front` calls every `push_back` returns `false` and every `pop_front` and
`front` returns `nullopt`; the state after the sequence is the fresh state, on which
`empty()` is `true` (every initial part of such a sequence is such a sequence, so this holds
after every call). -/
theorem zero_capacity (init : Nat → T) (ops : List (Op T))
    (hops : ∀ op ∈ ops, (∃ v, op = Op.push_back v) ∨ op = Op.pop_front ∨ op = Op.front) :
    ∃ es, (Queue.new 0 init).run ops = some (es, Queue.new 0 init) ∧ es.map Event.call = ops ∧
      (∀ e ∈ es, (∃ v, e = Event.push_back v false) ∨ e = Event.pop_front none ∨
        e = Event.front none) ∧
      (Queue.new 0 init).empty = true := by
  induction ops with
  | nil => exact ⟨[], rfl, rfl, by simp, rfl⟩
  | cons op ops ih =>
    obtain ⟨es, hr, hcall, hes, hemp⟩ := ih (fun o ho => hops o (List.mem_cons_of_mem _ ho))
    have hstep : ∃ e, (Queue.new 0 init).step op = some (e, Queue.new 0 init) ∧ e.call = op ∧
        ((∃ v, e = Event.push_back v false) ∨ e = Event.pop_front none ∨ e = Event.front none) := by
      rcases hops op (List.mem_cons_self _ _) with ⟨v, rfl⟩ | rfl | rfl
      · refine ⟨Event.push_back v false, ?_, rfl, Or.inl ⟨v, rfl⟩⟩
        have hn : (Queue.new 0 init).next_idx (Queue.new 0 init).write_idx_ =
            some (Queue.new 0 init).read_idx_ := by
          simp [Queue.next_idx, Queue.new, SIZE_MOD]
        simp [Queue.step, rejected_push_atomic_aux hn]
      · exact ⟨Event.pop_front none, by simp [Queue.step, Queue.pop_front, Queue.new], rfl,
          Or.inr (Or.inl rfl)⟩
      · exact ⟨Event.front none, by simp [Queue.step, Queue.front, Queue.new], rfl,
          Or.inr (Or.inr rfl)⟩
    obtain ⟨e, hs, hc, he⟩ := hstep
    refine ⟨e :: es, by rw [run_cons_of_step _ hs, hr]; rfl, by simp [hc, hcall], ?_, hemp⟩
    intro e1 he1
    rcases List.mem_cons.mp he1 with rfl | h1
    · exact he
    · exact hes e1 h1

/-- C5, a concrete instance: push, pop, front, push on a queue of capacity 0. -/
theorem zero_capacity_witness :
    (∀ op ∈ [Op.push_back 1, Op.pop_front, Op.front, Op.push_back 2],
      (∃ v, op = Op.push_back v) ∨ op = Op.pop_front ∨ op = Op.front) ∧
    ∃ es, (Queue.new 0 (fun _ => 0)).run [Op.push_back 1, Op.pop_front, Op.front, Op.push_back 2] =
        some (es, Queue.new 0 (fun _ => 0)) ∧
      es.map Event.call = [Op.push_back 1, Op.pop_front, Op.front, Op.push_back 2] ∧
      (∀ e ∈ es, (∃ v, e = Event.push_back v false) ∨ e = Event.pop_front none ∨
        e = Event.front none) ∧
      (Queue.new 0 (fun _ => 0)).empty = true :=
  ⟨by simp, zero_capacity (fun _ => 0) _ (by simp)⟩

/-! ## C6 — push then pop -/

/-- C6 (as amended): for every capacity `k` with `1 ≤ k < 2^64 - 1`, every value `v` and
every empty queue state of capacity `k` (`read_idx_ = write_idx_`, within `[0, k]`, the
buffer holding its `k + 1` cells), `push_back(v)` returns `true`, the `pop_front()` right
after it returns `v`, and the queue is `empty()` again. -/
theorem push_then_pop (q : Queue T) (v : T) (hk1 : 1 ≤ q.capacity_)
    (hk : q.capacity_ < 2 ^ 64 - 1) (hbuf : q.buffer_.length = q.capacity_ + 1)
    (he : q.read_idx_ = q.write_idx_) (hw : q.write_idx_ ≤ q.capacity_) :
    ∃ q1 q2, q.push_back v = some (true, q1) ∧ q1.pop_front = some (some v, q2) ∧
      q2.empty = true := by
  have hwf : q.WF := ⟨size_mod_of_lt hk, hbuf, hw, by omega⟩
  have hc0 : q.count = 0 := by
    rw [count_of_WF hwf]; split <;> omega
  obtain ⟨q1, hp, hwf1, -, -, -, hcont1⟩ := push_back_of_lt hwf (by omega) v
  rw [(pop_front_of_zero hwf hc0).2.2, List.nil_append] at hcont1
  have hc1 : q1.count ≠ 0 := by
    rw [← contents_length hwf1, hcont1]; simp
  obtain ⟨x, q2, hpop, -, -, hwf2, -, -, -, -, hcont2⟩ := pop_front_of_pos hwf1 hc1
  rw [hcont1, List.cons.injEq] at hcont2
  obtain ⟨rfl, hnil⟩ := hcont2
  have hc2 : q2.count = 0 := by
    rw [← contents_length hwf2, ← hnil]; rfl
  refine ⟨q1, q2, hp, hpop, ?_⟩
  rw [count_of_WF hwf2] at hc2
  obtain ⟨-, -, h3, h4⟩ := hwf2
  have : q2.write_idx_ = q2.read_idx_ := by split at hc2 <;> omega
  simp [Queue.empty, this]

/-- C6, a concrete instance: an empty queue of capacity 1 with both cursors at 1. -/
theorem push_then_pop_witness :
    (1 ≤ (⟨1, [8, 9], 1, 1⟩ : Queue Nat).capacity_) ∧
    ∃ q1 q2, (⟨1, [8, 9], 1, 1⟩ : Queue Nat).push_back 42 = some (true, q1) ∧
      q1.pop_front = some (some 42, q2) ∧ q2.empty = true :=
  ⟨by decide, push_then_pop ⟨1, [8, 9], 1, 1⟩ 42 (by decide) (by decide) rfl rfl (by decide)⟩

/-- C6 as stated fails at capacity `2^64 - 1`: on the fresh (empty) queue of that capacity
`push_back(42)` takes a remainder by zero and does not return `true`. -/
theorem push_then_pop_fails_at_size_max :
    ¬ ∃ q1 q2, (Queue.new (2 ^ 64 - 1) (fun _ => 0)).push_back 42 = some (true, q1) ∧
      q1.pop_front = some (some 42, q2) ∧ q2.empty = true := by
  rintro ⟨q1, q2, hq, -, -⟩
  have hnone : (Queue.new (2 ^ 64 - 1) (fun _ => 0)).push_back 42 = none := by decide
  rw [hnone] at hq
  exact Option.noConfusion hq

/-! ## C7 — wrap-around -/

/-- C7 (as amended): for every capacity `k` with `1 ≤ k < 2^64 - 1` and values `v1..vk`, `x`:
on a fresh `Queue(k)`, after pushing `v1..vk` (all accepted) and one `pop_front` (which
returns `v1`) the write cursor is `k`; `push_back(x)` then returns `true` and leaves the
write cursor at `0`; and the next `k` calls of `pop_front` return `v2, .., vk, x`. -/
theorem wrap_around (k : Nat) (hk : k < 2 ^ 64 - 1) (init : Nat → T) (v : T) (vs : List T)
    (x : T) (hlen : (v :: vs).length = k) :
    ∃ q1 q2 q3,
      (Queue.new k init).run ((v :: vs).map Op.push_back ++ [Op.pop_front]) =
        some ((v :: vs).map (fun a => Event.push_back a true) ++ [Event.pop_front (some v)], q1) ∧
      q1.write_idx_ = k ∧
      q1.push_back x = some (true, q2) ∧ q2.write_idx_ = 0 ∧
      q2.run (List.replicate k Op.pop_front) =
        some ((vs ++ [x]).map (fun a => Event.pop_front (some a)), q3) := by
  have hwf := new_WF k init (size_mod_of_lt hk)
  have hcnt0 : (Queue.new k init).count = 0 := by
    rw [← contents_length hwf, new_contents]; rfl
  obtain ⟨qa, hra, hwfa, hcapa, hrda, hconta⟩ :=
    run_pushes hwf (v :: vs) (by rw [hcnt0, hlen]; exact Nat.le_of_eq (Nat.zero_add k))
  rw [new_contents, List.nil_append] at hconta
  have hcapa1 : qa.capacity_ = k := hcapa
  have hrda1 : qa.read_idx_ = 0 := hrda
  have hcnta : qa.count = k := by rw [← contents_length hwfa, hconta, hlen]
  have hwa : qa.write_idx_ = k := by
    rw [count_of_WF hwfa, hrda1] at hcnta
    simpa using hcnta
  obtain ⟨q1, hr1, hwf1, hcap1, hw1, hcont1⟩ := run_pops hwfa [v] vs (by rw [hconta]; rfl)
  have hcnt1 : q1.count + 1 = k := by
    rw [← contents_length hwf1, hcont1, ← hlen]; rfl
  obtain ⟨q2, hp2, hwf2, hcap2, -, hw2, hcont2⟩ := push_back_of_lt hwf1 (by rw [hcap1, hcapa1]; omega) x
  obtain ⟨q3, hr3, -, -, -, -⟩ := run_pops hwf2 (vs ++ [x]) [] (by rw [hcont2, hcont1]; simp)
  have hlen3 : (vs ++ [x]).length = k := by rw [← hlen]; simp
  rw [hlen3] at hr3
  refine ⟨q1, q2, q3, ?_, hw1.trans hwa, hp2, ?_, hr3⟩
  · rw [run_append _ _ _ hra]
    simpa using hr1
  · rw [hw2, hw1, hwa, hcap1, hcapa1]; simp

/-- C7, the instance of the test: capacity 2 with 1, 2 and then 3; the pops yield 2 then 3. -/
theorem wrap_around_witness :
    (2 < 2 ^ 64 - 1) ∧ [1, 2].length = 2 ∧
    ∃ q1 q2 q3,
      (Queue.new 2 (fun _ => 0)).run ([1, 2].map Op.push_back ++ [Op.pop_front]) =
        some ([1, 2].map (fun a => Event.push_back a true) ++ [Event.pop_front (some 1)], q1) ∧
      q1.write_idx_ = 2 ∧
      q1.push_back 3 = some (true, q2) ∧ q2.write_idx_ = 0 ∧
      q2.run (List.replicate 2 Op.pop_front) =
        some (([2] ++ [3]).map (fun a => Event.pop_front (some a)), q3) :=
  ⟨by norm_num, rfl, wrap_around 2 (by norm_num) (fun _ => 0) 1 [2] 3 rfl⟩

/-- C7 as stated fails at capacity `2^64 - 1`: the first `push_back` on the fresh queue takes
a remainder by zero, so the pushes and the pop have no defined results. -/
theorem wrap_around_fails_at_size_max :
    ¬ ∃ q1, (Queue.new (2 ^ 64 - 1) (fun _ => 0)).run
        ((0 :: List.replicate (2 ^ 64 - 2) 0).map Op.push_back ++ [Op.pop_front]) =
      some ((0 :: List.replicate (2 ^ 64 - 2) 0).map (fun a => Event.push_back a true) ++
        [Event.pop_front (some 0)], q1) := by
  rintro ⟨q1, hq⟩
  have hz : ((Queue.new (2 ^ 64 - 1) (fun _ => 0) : Queue Nat).capacity_ + 1) % SIZE_MOD = 0 := by
    decide
  rw [List.map_cons, List.cons_append, run_push_of_zero_divisor hz] at hq
  exact Option.noConfusion hq

/-! ## C8 — peek then pop -/

/-- C8: in every state reached from a fresh `Queue(k)` (any `size_t` capacity `k`) by a
sequence of calls, `front()` and the `pop_front()` called right after it return the same
result: `nullopt` when the cursors are equal, and otherwise the element at the read cursor;
`front()` leaves the state as it was. -/
theorem peek_then_pop (k : Nat) (hk : k < 2 ^ 64) (init : Nat → T) (ops : List (Op T))
    (es : List (Event T)) (q : Queue T) (hr : (Queue.new k init).run ops = some (es, q)) :
    ∃ r q1, q.front = some (r, q) ∧ q.pop_front = some (r, q1) ∧
      r = (if q.write_idx_ = q.read_idx_ then none else q.buffer_[q.read_idx_]?) := by
  by_cases hk2 : k < 2 ^ 64 - 1
  · obtain ⟨es1, q1, hr1, hwf, -⟩ := run_of_WF (new_WF k init (size_mod_of_lt hk2)) ops
    rw [hr1, Option.some.injEq, Prod.mk.injEq] at hr
    obtain ⟨-, rfl⟩ := hr
    exact front_pop_agree_of_WF hwf
  · obtain ⟨rfl, -, -⟩ := run_stuck (new_stuck_of_size_max k hk hk2 init) rfl ops es q hr
    exact front_pop_agree_of_eq rfl

/-- C8, the instance of the test `Peek`: capacity 1 after `push_back(1)`. -/
theorem peek_then_pop_witness :
    (1 < 2 ^ 64) ∧
    (Queue.new 1 (fun _ => 0)).run [Op.push_back 1] =
      some ([Event.push_back 1 true], ⟨1, [1, 0], 1, 0⟩) ∧
    ∃ r q1, (⟨1, [1, 0], 1, 0⟩ : Queue Nat).front = some (r, ⟨1, [1, 0], 1, 0⟩) ∧
      (⟨1, [1, 0], 1, 0⟩ : Queue Nat).pop_front = some (r, q1) ∧
      r = (if (⟨1, [1, 0], 1, 0⟩ : Queue Nat).write_idx_ = (⟨1, [1, 0], 1, 0⟩ : Queue Nat).read_idx_
        then none else (⟨1, [1, 0], 1, 0⟩ : Queue Nat).buffer_[(⟨1, [1, 0], 1, 0⟩ : Queue Nat).read_idx_]?) :=
  ⟨by norm_num, by decide,
    peek_then_pop 1 (by norm_num) (fun _ => 0) [Op.push_back 1] [Event.push_back 1 true]
      ⟨1, [1, 0], 1, 0⟩ (by decide)⟩

/-! ## C9 — `full()` against the guard of `push_back` -/

/-- C9, the code at the failing input: on a fresh `Queue(2)` after `push_back(1)` and
`push_back(2)` (both accepted) the next write position equals the read position and
`push_back(3)` returns `false`, yet `full()` returns `false`. -/
theorem full_false_when_push_rejected :
    (Queue.new 2 (fun _ => 0)).run [Op.push_back 1, Op.push_back 2] =
      some ([Event.push_back 1 true, Event.push_back 2 true], ⟨2, [1, 2, 0], 2, 0⟩) ∧
    (⟨2, [1, 2, 0], 2, 0⟩ : Queue Nat).next_idx 2 = some 0 ∧
    (⟨2, [1, 2, 0], 2, 0⟩ : Queue Nat).push_back 3 = some (false, ⟨2, [1, 2, 0], 2, 0⟩) ∧
    (⟨2, [1, 2, 0], 2, 0⟩ : Queue Nat).full = false := by
  decide

/-! ## C10 — element count -/

/-- C10: for every `size_t` capacity `k` and every state reached from a fresh `Queue(k)` by
a sequence of calls, the number of `push_back` calls that returned `true` minus the number
of `pop_front` calls that returned a value equals `(write_idx_ - read_idx_) mod (k + 1)`,
and lies between `0` and `k`.  For `k < 2^64 - 1` every sequence of calls does reach a
state. -/
theorem element_count (k : Nat) (hk : k < 2 ^ 64) (init : Nat → T) (ops : List (Op T)) :
    (k < 2 ^ 64 - 1 → ∃ es q, (Queue.new k init).run ops = some (es, q)) ∧
    ∀ es q, (Queue.new k init).run ops = some (es, q) →
      ((accepted es).length : Int) - ((delivered es).length : Int) =
        ((q.write_idx_ : Int) - (q.read_idx_ : Int)) % ((k : Int) + 1) ∧
      0 ≤ ((accepted es).length : Int) - ((delivered es).length : Int) ∧
      ((accepted es).length : Int) - ((delivered es).length : Int) ≤ (k : Int) := by
  refine ⟨fun hk2 => ?_, fun es q hr => ?_⟩
  · obtain ⟨es, q, hr, -⟩ := run_of_WF (new_WF k init (size_mod_of_lt hk2)) ops
    exact ⟨es, q, hr⟩
  · by_cases hk2 : k < 2 ^ 64 - 1
    · obtain ⟨es1, q1, hr1, hwf, hcap, -, hc⟩ :=
        run_of_WF (new_WF k init (size_mod_of_lt hk2)) ops
      rw [hr1, Option.some.injEq, Prod.mk.injEq] at hr
      obtain ⟨rfl, rfl⟩ := hr
      rw [new_contents, List.nil_append] at hc
      have hcap1 : q1.capacity_ = k := hcap
      have hlen : (accepted es1).length = (delivered es1).length + q1.count := by
        rw [hc, List.length_append, contents_length hwf]
      have hint := int_count_of_WF hwf
      have hle := count_le_of_WF hwf
      rw [hcap1] at hint hle
      rw [hint]
      omega
    · obtain ⟨rfl, ha, hd⟩ := run_stuck (new_stuck_of_size_max k hk hk2 init) rfl ops es q hr
      rw [ha, hd]
      simp [Queue.new]

/-- C10, a concrete instance: capacity 2 after two pushes, a pop and a push (the write
cursor has wrapped to 0, the read cursor is 1, two elements are held). -/
theorem element_count_witness :
    (2 < 2 ^ 64) ∧
    (Queue.new 2 (fun _ => 0)).run [Op.push_back 1, Op.push_back 2, Op.pop_front, Op.push_back 3] =
      some ([Event.push_back 1 true, Event.push_back 2 true, Event.pop_front (some 1),
        Event.push_back 3 true], ⟨2, [1, 2, 3], 0, 1⟩) ∧
    (((accepted [Event.push_back 1 true, Event.push_back 2 true, Event.pop_front (some 1),
        Event.push_back 3 true]).length : Int) -
      ((delivered [Event.push_back 1 true, Event.push_back 2 true, Event.pop_front (some 1),
        Event.push_back 3 true]).length : Int) =
      (((⟨2, [1, 2, 3], 0, 1⟩ : Queue Nat).write_idx_ : Int) -
        ((⟨2, [1, 2, 3], 0, 1⟩ : Queue Nat).read_idx_ : Int)) % (((2 : Nat) : Int) + 1)) :=
  ⟨by norm_num, by decide,
    ((element_count 2 (by norm_num) (fun _ => 0)
      [Op.push_back 1, Op.push_back 2, Op.pop_front, Op.push_back 3]).2
      [Event.push_back 1 true, Event.push_back 2 true, Event.pop_front (some 1),
        Event.push_back 3 true] ⟨2, [1, 2, 3], 0, 1⟩ (by decide)).1⟩

/-! ## Further facts about well-formed states -/

theorem count_eq_zero_iff {q : Queue T} (h : q.WF) : q.count = 0 ↔ q.write_idx_ = q.read_idx_ := by
  rw [count_of_WF h]
  obtain ⟨-, -, h3, h4⟩ := h
  split <;> omega

theorem full_empty_never_both (q : Queue T) : ¬ (q.full = true ∧ q.empty = true) := by
  rintro ⟨hf, he⟩
  simp only [Queue.full, Queue.empty, decide_eq_true_eq, SIZE_MOD] at hf he
  omega

theorem run_reach {k : Nat} (hk : k < 2 ^ 64) {init : Nat → T} {ops : List (Op T)}
    {es : List (Event T)} {q : Queue T} (hr : (Queue.new k init).run ops = some (es, q)) :
    (k < 2 ^ 64 - 1 ∧ q.WF ∧ q.capacity_ = k ∧ accepted es = delivered es ++ q.contents) ∨
    (k = 2 ^ 64 - 1 ∧ q = Queue.new k init ∧ accepted es = [] ∧ delivered es = []) := by
  by_cases hk2 : k < 2 ^ 64 - 1
  · obtain ⟨es1, q1, hr1, hwf, hcap, -, hc⟩ := run_of_WF (new_WF k init (size_mod_of_lt hk2)) ops
    rw [hr1, Option.some.injEq, Prod.mk.injEq] at hr
    obtain ⟨rfl, rfl⟩ := hr
    rw [new_contents, List.nil_append] at hc
    exact Or.inl ⟨hk2, hwf, hcap, hc⟩
  · obtain ⟨h1, h2, h3⟩ := run_stuck (new_stuck_of_size_max k hk hk2 init) rfl ops es q hr
    exact Or.inr ⟨by omega, h1, h2, h3⟩

/-! ## C11 — `empty()` -/

/-- C11: `empty()` returns `true` iff `read_idx_ = write_idx_` (in every state), and in every
state reached from a fresh `Queue(k)` by a sequence of calls this is the case iff the number
of `push_back` calls that returned `true` equals the number of `pop_front` calls that
returned a value. -/
theorem empty_exact (k : Nat) (hk : k < 2 ^ 64) (init : Nat → T) (ops : List (Op T))
    (es : List (Event T)) (q : Queue T) (hr : (Queue.new k init).run ops = some (es, q)) :
    (∀ s : Queue T, s.empty = true ↔ s.read_idx_ = s.write_idx_) ∧
    (q.empty = true ↔ (accepted es).length = (delivered es).length) := by
  refine ⟨fun s => by simp [Queue.empty, eq_comm], ?_⟩
  rcases run_reach hk hr with ⟨-, hwf, -, hc⟩ | ⟨-, rfl, ha, hd⟩
  · have hlen : (accepted es).length = (delivered es).length + q.count := by
      rw [hc, List.length_append, contents_length hwf]
    have hz := count_eq_zero_iff hwf
    simp only [Queue.empty, decide_eq_true_eq]
    constructor
    · intro h; have := hz.mpr h; omega
    · intro h; exact hz.mp (by omega)
  · simp [ha, hd, Queue.empty, Queue.new]

/-- C11, the instance of the test `MultiplePushPop`: on a `Queue(2)`, after two pushes and
one pop `empty()` is `false` (2 accepted, 1 popped); after the second pop it is `true`. -/
theorem empty_exact_witness :
    (2 < 2 ^ 64) ∧
    (Queue.new 2 (fun _ => 0)).run [Op.push_back 1, Op.push_back 2, Op.pop_front] =
      some ([Event.push_back 1 true, Event.push_back 2 true, Event.pop_front (some 1)],
        ⟨2, [1, 2, 0], 2, 1⟩) ∧
    (Queue.new 2 (fun _ => 0)).run [Op.push_back 1, Op.push_back 2, Op.pop_front, Op.pop_front] =
      some ([Event.push_back 1 true, Event.push_back 2 true, Event.pop_front (some 1),
        Event.pop_front (some 2)], ⟨2, [1, 2, 0], 2, 2⟩) ∧
    (⟨2, [1, 2, 0], 2, 1⟩ : Queue Nat).empty = false ∧
    ((⟨2, [1, 2, 0], 2, 2⟩ : Queue Nat).empty = true ↔
      (accepted [Event.push_back 1 true, Event.push_back 2 true, Event.pop_front (some 1),
        Event.pop_front (some 2)]).length =
      (delivered [Event.push_back 1 true, Event.push_back 2 true, Event.pop_front (some 1),
        Event.pop_front (some 2)]).length) :=
  ⟨by norm_num, by decide, by decide, by decide,
    (empty_exact 2 (by norm_num) (fun _ => 0)
      [Op.push_back 1, Op.push_back 2, Op.pop_front, Op.pop_front]
      [Event.push_back 1 true, Event.push_back 2 true, Event.pop_front (some 1),
        Event.pop_front (some 2)] ⟨2, [1, 2, 0], 2, 2⟩ (by decide)).2⟩

/-! ## C12 — full and empty -/

/-- C12: in no state do `full()` and `empty()` both return `true`; in particular not in a
state reached from a fresh `Queue(k)` of any capacity (0 included) by a sequence of calls. -/
theorem full_empty_exclusive :
    (∀ q : Queue T, ¬ (q.full = true ∧ q.empty = true)) ∧
    (∀ (k : Nat) (init : Nat → T) (ops : List (Op T)) (es : List (Event T)) (q : Queue T),
      (Queue.new k init).run ops = some (es, q) → ¬ (q.full = true ∧ q.empty = true)) :=
  ⟨full_empty_never_both, fun _ _ _ _ q _ => full_empty_never_both q⟩

/-- C12, a concrete instance: a `Queue(0)` after a rejected push and a pop. -/
theorem full_empty_exclusive_witness :
    (Queue.new 0 (fun _ => 0)).run [Op.push_back 1, Op.pop_front] =
      some ([Event.push_back 1 false, Event.pop_front none], ⟨0, [0], 0, 0⟩) ∧
    ¬ ((⟨0, [0], 0, 0⟩ : Queue Nat).full = true ∧ (⟨0, [0], 0, 0⟩ : Queue Nat).empty = true) :=
  ⟨by decide, full_empty_exclusive.2 0 (fun _ => 0) [Op.push_back 1, Op.pop_front]
    [Event.push_back 1 false, Event.pop_front none] ⟨0, [0], 0, 0⟩ (by decide)⟩

/-! ## C15 — cursor range -/

/-- C15: for every `size_t` capacity `k` and every state reached from a fresh `Queue(k)` by a
sequence of calls, `write_idx_` and `read_idx_` lie in `[0, k]`, and whenever a call in that
state gets to access `buffer_[write_idx_]` or `buffer_[read_idx_]`, the buffer has `k + 1`
cells and the accessed index is below `k + 1`.  For `k < 2^64 - 1` every sequence of calls
does reach a state. -/
theorem cursor_range (k : Nat) (hk : k < 2 ^ 64) (init : Nat → T) (ops : List (Op T)) :
    (k < 2 ^ 64 - 1 → ∃ es q, (Queue.new k init).run ops = some (es, q)) ∧
    ∀ es q, (Queue.new k init).run ops = some (es, q) →
      q.write_idx_ ≤ k ∧ q.read_idx_ ≤ k ∧
      ∀ op i, q.accessed op = some i → q.buffer_.length = k + 1 ∧ i < k + 1 := by
  refine ⟨fun hk2 => ?_, fun es q hr => ?_⟩
  · obtain ⟨es, q, hr, -⟩ := run_of_WF (new_WF k init (size_mod_of_lt hk2)) ops
    exact ⟨es, q, hr⟩
  · rcases run_reach hk hr with ⟨-, hwf, hcap, -⟩ | ⟨hk2, rfl, -, -⟩
    · obtain ⟨-, h2, h3, h4⟩ := hwf
      rw [hcap] at h2 h3 h4
      refine ⟨h3, h4, ?_⟩
      intro op i hacc
      refine ⟨h2, ?_⟩
      cases op with
      | push_back v =>
        simp only [Queue.accessed] at hacc
        split at hacc
        · exact Option.noConfusion hacc
        · split at hacc
          · exact Option.noConfusion hacc
          · rw [Option.some.injEq] at hacc; omega
      | pop_front =>
        simp only [Queue.accessed] at hacc
        split at hacc
        · exact Option.noConfusion hacc
        · rw [Option.some.injEq] at hacc; omega
      | front =>
        simp only [Queue.accessed] at hacc
        split at hacc
        · exact Option.noConfusion hacc
        · rw [Option.some.injEq] at hacc; omega
      | empty => exact Option.noConfusion hacc
      | full => exact Option.noConfusion hacc
    · refine ⟨Nat.zero_le _, Nat.zero_le _, ?_⟩
      intro op i hacc
      have hz : (Queue.new k init).next_idx (Queue.new k init).write_idx_ = none := by
        have := new_stuck_of_size_max k hk (by omega) init
        simp [Queue.next_idx, this]
      cases op with
      | push_back v => simp [Queue.accessed, hz] at hacc
      | pop_front => simp [Queue.accessed, Queue.new] at hacc
      | front => simp [Queue.accessed, Queue.new] at hacc
      | empty => exact Option.noConfusion hacc
      | full => exact Option.noConfusion hacc

/-- C15, a concrete instance: capacity 2 after two pushes, a pop and a push; the cursors
are 0 and 1, and a `pop_front` there accesses cell 1 of the 3 cells. -/
theorem cursor_range_witness :
    (2 < 2 ^ 64) ∧
    (Queue.new 2 (fun _ => 0)).run [Op.push_back 1, Op.push_back 2, Op.pop_front, Op.push_back 3] =
      some ([Event.push_back 1 true, Event.push_back 2 true, Event.pop_front (some 1),
        Event.push_back 3 true], ⟨2, [1, 2, 3], 0, 1⟩) ∧
    (⟨2, [1, 2, 3], 0, 1⟩ : Queue Nat).accessed Op.pop_front = some 1 ∧
    ((⟨2, [1, 2, 3], 0, 1⟩ : Queue Nat).buffer_.length = 2 + 1 ∧ 1 < 2 + 1) :=
  ⟨by norm_num, by decide, by decide,
    ((cursor_range 2 (by norm_num) (fun _ => 0)
      [Op.push_back 1, Op.push_back 2, Op.pop_front, Op.push_back 3]).2
      [Event.push_back 1 true, Event.push_back 2 true, Event.pop_front (some 1),
        Event.push_back 3 true] ⟨2, [1, 2, 3], 0, 1⟩ (by decide)).2.2 Op.pop_front 1 (by decide)⟩

/-! ## C16 — what each call may change -/

/-- C16: in every queue state, a `push_back` that returns leaves `read_idx_` and `capacity_`
as they were and changes no buffer cell other than the one at the old `write_idx_`; a
`pop_front` that returns leaves `write_idx_`, `capacity_` and the buffer as they were; a
`front()` that returns leaves the whole state as it was; `empty()` and `full()` always
return and leave the state as it was.  In a well-formed state every call returns. -/
theorem call_frame (q : Queue T) :
    (∀ v b q1, q.push_back v = some (b, q1) →
      q1.read_idx_ = q.read_idx_ ∧ q1.capacity_ = q.capacity_ ∧
      q1.buffer_.length = q.buffer_.length ∧
      ∀ i, i ≠ q.write_idx_ → q1.buffer_[i]? = q.buffer_[i]?) ∧
    (∀ r q1, q.pop_front = some (r, q1) →
      q1.write_idx_ = q.write_idx_ ∧ q1.capacity_ = q.capacity_ ∧ q1.buffer_ = q.buffer_) ∧
    (∀ r q1, q.front = some (r, q1) → q1 = q) ∧
    q.step Op.empty = some (Event.empty q.empty, q) ∧
    q.step Op.full = some (Event.full q.full, q) ∧
    (q.WF → ∀ op, ∃ e q1, q.step op = some (e, q1)) := by
  refine ⟨?_, ?_, ?_, rfl, rfl, ?_⟩
  · intro v b q1 h
    simp only [Queue.push_back] at h
    split at h
    · exact Option.noConfusion h
    · split at h
      · simp only [Option.some.injEq, Prod.mk.injEq] at h
        obtain ⟨-, rfl⟩ := h
        exact ⟨rfl, rfl, rfl, fun _ _ => rfl⟩
      · split at h
        · simp only [Option.some.injEq, Prod.mk.injEq] at h
          obtain ⟨-, rfl⟩ := h
          refine ⟨rfl, rfl, by simp, ?_⟩
          intro i hi
          exact List.getElem?_set_ne (Ne.symm hi)
        · exact Option.noConfusion h
  · intro r q1 h
    simp only [Queue.pop_front] at h
    split at h
    · simp only [Option.some.injEq, Prod.mk.injEq] at h
      obtain ⟨-, rfl⟩ := h
      exact ⟨rfl, rfl, rfl⟩
    · split at h
      · exact Option.noConfusion h
      · split at h
        · exact Option.noConfusion h
        · simp only [Option.some.injEq, Prod.mk.injEq] at h
          obtain ⟨-, rfl⟩ := h
          exact ⟨rfl, rfl, rfl⟩
  · intro r q1 h
    simp only [Queue.front] at h
    split at h
    · simp only [Option.some.injEq, Prod.mk.injEq] at h
      exact h.2.symm
    · split at h
      · exact Option.noConfusion h
      · simp only [Option.some.injEq, Prod.mk.injEq] at h
        exact h.2.symm
  · intro hwf op
    obtain ⟨e, q1, hs, -⟩ := step_of_WF hwf op
    exact ⟨e, q1, hs⟩

/-- C16, a concrete instance: on the state of capacity 2 with cells 1, 2, 0 and cursors
`write_idx_ = 2`, `read_idx_ = 1`, a `push_back(3)` and a `pop_front()`. -/
theorem call_frame_witness :
    (⟨2, [1, 2, 0], 2, 1⟩ : Queue Nat).push_back 3 = some (true, ⟨2, [1, 2, 3], 0, 1⟩) ∧
    (⟨2, [1, 2, 0], 2, 1⟩ : Queue Nat).pop_front = some (some 2, ⟨2, [1, 2, 0], 2, 2⟩) ∧
    ((⟨2, [1, 2, 3], 0, 1⟩ : Queue Nat).read_idx_ = (⟨2, [1, 2, 0], 2, 1⟩ : Queue Nat).read_idx_ ∧
      (⟨2, [1, 2, 3], 0, 1⟩ : Queue Nat).capacity_ = (⟨2, [1, 2, 0], 2, 1⟩ : Queue Nat).capacity_ ∧
      (⟨2, [1, 2, 3], 0, 1⟩ : Queue Nat).buffer_.length =
        (⟨2, [1, 2, 0], 2, 1⟩ : Queue Nat).buffer_.length ∧
      ∀ i, i ≠ (⟨2, [1, 2, 0], 2, 1⟩ : Queue Nat).write_idx_ →
        (⟨2, [1, 2, 3], 0, 1⟩ : Queue Nat).buffer_[i]? = (⟨2, [1, 2, 0], 2, 1⟩ : Queue Nat).buffer_[i]?) ∧
    ((⟨2, [1, 2, 0], 2, 2⟩ : Queue Nat).write_idx_ = (⟨2, [1, 2, 0], 2, 1⟩ : Queue Nat).write_idx_ ∧
      (⟨2, [1, 2, 0], 2, 2⟩ : Queue Nat).capacity_ = (⟨2, [1, 2, 0], 2, 1⟩ : Queue Nat).capacity_ ∧
      (⟨2, [1, 2, 0], 2, 2⟩ : Queue Nat).buffer_ = (⟨2, [1, 2, 0], 2, 1⟩ : Queue Nat).buffer_) :=
  ⟨by decide, by decide,
    (call_frame ⟨2, [1, 2, 0], 2, 1⟩).1 3 true ⟨2, [1, 2, 3], 0, 1⟩ (by decide),
    (call_frame ⟨2, [1, 2, 0], 2, 1⟩).2.1 (some 2) ⟨2, [1, 2, 0], 2, 2⟩ (by decide)⟩

/-! ## C17 — burst traffic -/

theorem step_refines {q : Queue T} (h : q.WF) (c : Call T) :
    ∃ q1, q.step c.toOp = some ((ListModel.step q.capacity_ q.contents c).1, q1) ∧ q1.WF ∧
      q1.capacity_ = q.capacity_ ∧ q1.contents = (ListModel.step q.capacity_ q.contents c).2 := by
  have hlen := contents_length h
  cases c with
  | push_back v =>
    rcases Nat.lt_or_ge q.count q.capacity_ with hc | hc
    · obtain ⟨q1, hp, hwf, hcap, -, -, hcont⟩ := push_back_of_lt h hc v
      refine ⟨q1, ?_, hwf, hcap, ?_⟩
      · simp [Call.toOp, Queue.step, hp, ListModel.step, hlen, hc]
      · simp [ListModel.step, hlen, hc, hcont]
    · have hp := push_back_of_full h (Nat.le_antisymm (count_le_of_WF h) hc) v
      have hnot : ¬ q.count < q.capacity_ := by omega
      refine ⟨q, ?_, h, rfl, ?_⟩
      · simp [Call.toOp, Queue.step, hp, ListModel.step, hlen, hnot]
      · simp [ListModel.step, hlen, hnot]
  | pop_front =>
    by_cases hc : q.count = 0
    · obtain ⟨hp, -, hnil⟩ := pop_front_of_zero h hc
      exact ⟨q, by simp [Call.toOp, Queue.step, hp, ListModel.step, hnil], h, rfl,
        by simp [ListModel.step, hnil]⟩
    · obtain ⟨x, q1, hp, -, -, hwf, hcap, -, -, -, hcont⟩ := pop_front_of_pos h hc
      exact ⟨q1, by simp [Call.toOp, Queue.step, hp, ListModel.step, hcont], hwf, hcap,
        by simp [ListModel.step, hcont]⟩
  | front =>
    by_cases hc : q.count = 0
    · obtain ⟨-, hf, hnil⟩ := pop_front_of_zero h hc
      exact ⟨q, by simp [Call.toOp, Queue.step, hf, ListModel.step, hnil], h, rfl,
        by simp [ListModel.step]⟩
    · obtain ⟨x, q1, -, hf, -, -, -, -, -, -, hcont⟩ := pop_front_of_pos h hc
      exact ⟨q, by simp [Call.toOp, Queue.step, hf, ListModel.step, hcont], h, rfl,
        by simp [ListModel.step]⟩
  | empty =>
    refine ⟨q, ?_, h, rfl, by simp [ListModel.step]⟩
    have hiff : q.empty = q.contents.isEmpty := by
      have hz := count_eq_zero_iff h
      rw [Bool.eq_iff_iff]
      simp only [Queue.empty, decide_eq_true_eq, List.isEmpty_iff]
      rw [← hz, ← hlen, List.length_eq_zero]
    simp [Call.toOp, Queue.step, ListModel.step, hiff]

theorem run_refines {q : Queue T} (h : q.WF) (calls : List (Call T)) :
    ∃ q1, q.run (calls.map Call.toOp) =
        some ((ListModel.run q.capacity_ q.contents calls).1, q1) ∧
      q1.contents = (ListModel.run q.capacity_ q.contents calls).2 := by
  induction calls generalizing q with
  | nil => exact ⟨q, rfl, rfl⟩
  | cons c cs ih =>
    obtain ⟨q1, hs, hwf, hcap, hcont⟩ := step_refines h c
    obtain ⟨q2, hr, hcont2⟩ := ih hwf
    rw [hcap, hcont] at hr hcont2
    refine ⟨q2, ?_, ?_⟩
    · rw [List.map_cons, run_cons_of_step _ hs, hr]; rfl
    · rw [hcont2]; rfl

/-- C18: for every capacity `k < 2^64 - 1` and every finite sequence of `push_back(v)`,
`pop_front()`, `front()` and `empty()` calls on a fresh `Queue(k)`, every call returns, the
results are those of the bounded-list reference model started from the empty list, and
the model's list at the end is the cells from `read_idx_` up to `write_idx_` taken
cyclically (every initial part of a sequence being a sequence, this holds after each
call). -/
theorem refines_list_model (k : Nat) (hk : k < 2 ^ 64 - 1) (init : Nat → T)
    (calls : List (Call T)) :
    ∃ q, (Queue.new k init).run (calls.map Call.toOp) =
        some ((ListModel.run k [] calls).1, q) ∧
      q.contents = (ListModel.run k [] calls).2 := by
  obtain ⟨q, hr, hc⟩ := run_refines (new_WF k init (size_mod_of_lt hk)) calls
  rw [new_contents] at hr hc
  exact ⟨q, hr, hc⟩

/-- C18, a concrete instance: capacity 2, with a rejected push, a wrap of the write cursor
and the four kinds of call. -/
theorem refines_list_model_witness :
    (2 < 2 ^ 64 - 1) ∧
    ListModel.run 2 [] [Call.empty, Call.push_back 1, Call.push_back 2, Call.push_back 3,
        Call.front, Call.pop_front, Call.push_back 4, Call.pop_front, Call.empty] =
      ([Event.empty true, Event.push_back 1 true, Event.push_back 2 true,
        Event.push_back 3 false, Event.front (some 1), Event.pop_front (some 1),
        Event.push_back 4 true, Event.pop_front (some 2), Event.empty false], [4]) ∧
    ∃ q, (Queue.new 2 (fun _ => 0)).run
        ([Call.empty, Call.push_back 1, Call.push_back 2, Call.push_back 3,
          Call.front, Call.pop_front, Call.push_back 4, Call.pop_front,
          Call.empty].map Call.toOp) =
        some ((ListModel.run 2 [] [Call.empty, Call.push_back 1, Call.push_back 2,
          Call.push_back 3, Call.front, Call.pop_front, Call.push_back 4, Call.pop_front,
          Call.empty]).1, q) ∧
      q.contents = (ListModel.run 2 [] [Call.empty, Call.push_back 1, Call.push_back 2,
          Call.push_back 3, Call.front, Call.pop_front, Call.push_back 4, Call.pop_front,
          Call.empty]).2 :=
  ⟨by norm_num, by decide, refines_list_model 2 (by norm_num) (fun _ => 0) _⟩

/-! ## C19 — the literal comparison of `full()` -/

theorem full_iff_of_WF {q : Queue T} (h : q.WF) :
    q.full = true ↔ q.write_idx_ + 1 = q.read_idx_ := by
  obtain ⟨h1, -, h3, h4⟩ := h
  simp only [Queue.full, decide_eq_true_eq]
  unfold SIZE_MOD at h1 ⊢
  omega

theorem push_rejected_iff {q : Queue T} (h : q.WF) (v : T) :
    q.push_back v = some (false, q) ↔ q.count = q.capacity_ := by
  constructor
  · intro hp
    rcases Nat.lt_or_ge q.count q.capacity_ with hc | hc
    · obtain ⟨q1, hp1, -⟩ := push_back_of_lt h hc v
      rw [hp1] at hp
      simp at hp
    · exact Nat.le_antisymm (count_le_of_WF h) hc
  · intro hc
    exact push_back_of_full h hc v

/-- C19: for every capacity `k < 2^64 - 1` every sequence of calls on a fresh `Queue(k)`
reaches a state, and in every state so reached: `full()` returns `true` iff the queue holds
`k` elements (accepted pushes minus successful pops) and `write_idx_` is not `k`; when
`full()` returns `true`, `push_back` returns `false`; and `push_back` returns `false` while
`full()` returns `false` exactly in the states with `write_idx_ = k` and `read_idx_ = 0`. -/
theorem full_exact (k : Nat) (hk : k < 2 ^ 64 - 1) (init : Nat → T) (ops : List (Op T)) :
    (∃ es q, (Queue.new k init).run ops = some (es, q)) ∧
    ∀ es q, (Queue.new k init).run ops = some (es, q) →
      (q.full = true ↔
        ((accepted es).length = (delivered es).length + k ∧ q.write_idx_ ≠ k)) ∧
      (q.full = true → ∀ v, q.push_back v = some (false, q)) ∧
      (∀ v, (q.push_back v = some (false, q) ∧ q.full = false) ↔
        (q.write_idx_ = k ∧ q.read_idx_ = 0)) := by
  obtain ⟨es1, q1, hr1, hwf, hcap, -, hc⟩ := run_of_WF (new_WF k init (size_mod_of_lt hk)) ops
  refine ⟨⟨es1, q1, hr1⟩, ?_⟩
  intro es q hr
  rw [hr1, Option.some.injEq, Prod.mk.injEq] at hr
  obtain ⟨rfl, rfl⟩ := hr
  rw [new_contents, List.nil_append] at hc
  have hcap1 : q1.capacity_ = k := hcap
  have hlen : (accepted es1).length = (delivered es1).length + q1.count := by
    rw [hc, List.length_append, contents_length hwf]
  have hfull := full_iff_of_WF hwf
  have hcnt := count_of_WF hwf
  have hrej := fun v => push_rejected_iff hwf v
  obtain ⟨-, -, h3, h4⟩ := hwf
  rw [hcap1] at hcnt h3 h4 hrej
  have hfalse : q1.full = false ↔ ¬ q1.write_idx_ + 1 = q1.read_idx_ := by
    rw [← hfull]; simp
  refine ⟨?_, ?_, ?_⟩
  · rw [hfull, hlen]
    split_ifs at hcnt <;> omega
  · intro hf v
    rw [hrej v]
    rw [hfull] at hf
    split_ifs at hcnt <;> omega
  · intro v
    rw [hrej v, hfalse]
    split_ifs at hcnt <;> omega

/-- C19, a concrete instance: capacity 2 after two pushes (`write_idx_ = 2`, `read_idx_ = 0`):
the queue holds 2 elements, `full()` returns `false` and `push_back(3)` returns `false`. -/
theorem full_exact_witness :
    (2 < 2 ^ 64 - 1) ∧
    (Queue.new 2 (fun _ => 0)).run [Op.push_back 1, Op.push_back 2] =
      some ([Event.push_back 1 true, Event.push_back 2 true], ⟨2, [1, 2, 0], 2, 0⟩) ∧
    (((⟨2, [1, 2, 0], 2, 0⟩ : Queue Nat).push_back 3 = some (false, ⟨2, [1, 2, 0], 2, 0⟩) ∧
        (⟨2, [1, 2, 0], 2, 0⟩ : Queue Nat).full = false) ↔
      ((⟨2, [1, 2, 0], 2, 0⟩ : Queue Nat).write_idx_ = 2 ∧
        (⟨2, [1, 2, 0], 2, 0⟩ : Queue Nat).read_idx_ = 0)) :=
  ⟨by norm_num, by decide,
    ((full_exact 2 (by norm_num) (fun _ => 0) [Op.push_back 1, Op.push_back 2]).2
      [Event.push_back 1 true, Event.push_back 2 true] ⟨2, [1, 2, 0], 2, 0⟩ (by decide)).2.2 3⟩

end spsc
end lockfree
